import Mathlib

/-!
Shallow embedding of `icvm256.py` (finite-field arithmetic, short-Weierstrass
curve group law, ECDSA sign/verify) and proofs about it.

Conventions of the embedding:
* Python `None` (the point at infinity) is `Option.none`; a raised exception is
  modelled by an `Option`-returning function yielding `none`.
* Python `%` and `//` on `int` are floor-convention; they coincide with Lean's
  `Int.emod` / `Int.ediv` whenever the divisor is positive, which is the case at
  every division this program reaches (`p`, `n`, `2`, and the remainders of the
  Euclidean loop, which stay non-negative).
-/

namespace ICVM256

/-- A point: `none` is the point at infinity, otherwise affine coordinates. -/
abbrev Point := Option (Int × Int)

/-- Structure `FiniteField(p)` from `icvm256.py`. -/
structure FiniteField where
  p : Int
deriving Repr, DecidableEq

namespace FiniteField

/-- Embedding of `FiniteField.add`. -/
def add (F : FiniteField) (a b : Int) : Int := (a + b) % F.p

/-- Embedding of `FiniteField.subtract`. -/
def subtract (F : FiniteField) (a b : Int) : Int := (a - b) % F.p

/-- Embedding of `FiniteField.multiply`. -/
def multiply (F : FiniteField) (a b : Int) : Int := (a * b) % F.p

/-- The `while r != 0` loop of `FiniteField.inverse`, with state
`(old_r, r, old_s, s, old_t, t)`; returns the final `(old_r, old_s, old_t)`. -/
def invLoop (old_r r old_s s old_t t : Int) : Int × Int × Int :=
  if hr : r = 0 then (old_r, old_s, old_t)
  else
    invLoop r (old_r - old_r / r * r) s (old_s - old_r / r * s) t (old_t - old_r / r * t)
termination_by r.natAbs
decreasing_by
  have h1 : old_r - old_r / r * r = old_r % r := by rw [Int.emod_def]; ring
  rw [h1]
  have h2 : 0 ≤ old_r % r := Int.emod_nonneg old_r hr
  rcases lt_or_gt_of_ne hr with hneg | hpos
  · have h3 : old_r % (-r) < -r := Int.emod_lt_of_pos old_r (by omega)
    rw [Int.emod_neg] at h3
    omega
  · have h3 : old_r % r < r := Int.emod_lt_of_pos old_r hpos
    omega

/-- Embedding of `FiniteField.inverse`: `none` models the raised `ZeroDivisionError`. -/
def inverse (F : FiniteField) (a : Int) : Option Int :=
  if a = 0 then none
  else some ((invLoop a F.p 1 0 0 1).2.1 % F.p)

/-- Embedding of `FiniteField.divide`. -/
def divide (F : FiniteField) (a b : Int) : Option Int :=
  (F.inverse b).map fun i => F.multiply a i

/-- The `while n > 0` loop of `FiniteField.pow`. -/
def powLoop (F : FiniteField) (result a n : Int) : Int :=
  if 0 < n then
    powLoop F (if n % 2 = 1 then F.multiply result a else result) (F.multiply a a) (n / 2)
  else result
termination_by n.toNat
decreasing_by omega

/-- Embedding of `FiniteField.pow`. -/
def pow (F : FiniteField) (a n : Int) : Int := F.powLoop 1 (a % F.p) n

end FiniteField

/-- The data stored by `EllipticCurve.__init__` (validation is `init` below). -/
structure EllipticCurve where
  a : Int
  b : Int
  p : Int
  n : Int
  G : Int × Int
deriving Repr, DecidableEq

namespace EllipticCurve

/-- `self.field = FiniteField(p)`. -/
def field (c : EllipticCurve) : FiniteField := ⟨c.p⟩

/-- Embedding of `EllipticCurve.is_on_curve`. -/
def is_on_curve (c : EllipticCurve) (point : Point) : Bool :=
  match point with
  | none => true
  | some (x, y) =>
    let left := c.field.pow y 2
    let right := c.field.add (c.field.add (c.field.pow x 3) (c.field.multiply c.a x)) c.b
    decide (left = right)

/-- Embedding of `EllipticCurve.__init__(a, b, p, n, G_x, G_y)`: `none` models the raised
`ValueError` when the generator is not on the curve. -/
def init (a b p n G_x G_y : Int) : Option EllipticCurve :=
  let c : EllipticCurve := ⟨a, b, p, n, (G_x, G_y)⟩
  if c.is_on_curve (some c.G) then some c else none

/-- Embedding of `EllipticCurve.add_points`; the outer `Option` is error propagation
(`none` = the `ZeroDivisionError` raised by `divide` on a zero denominator). -/
def add_points (c : EllipticCurve) (P1 P2 : Point) : Option Point :=
  match P1, P2 with
  | none, _ => some P2
  | _, none => some P1
  | some (x1, y1), some (x2, y2) =>
    if x1 = x2 ∧ y1 = c.field.subtract 0 y2 then
      some none
    else
      let slopeOpt : Option Int :=
        if x1 = x2 ∧ y1 = y2 then
          c.field.divide (c.field.add (c.field.multiply 3 (c.field.pow x1 2)) c.a)
            (c.field.multiply 2 y1)
        else
          c.field.divide (c.field.subtract y2 y1) (c.field.subtract x2 x1)
      slopeOpt.map fun slope =>
        let x3 := c.field.subtract (c.field.subtract (c.field.pow slope 2) x1) x2
        some (x3, c.field.subtract (c.field.multiply slope (c.field.subtract x1 x3)) y1)

/-- The `while scalar:` loop of `EllipticCurve.scalar_multiply` (the scalar is
already reduced and non-negative there, so it is carried as a `Nat`). -/
def mulLoop (c : EllipticCurve) (result addend : Point) (scalar : Nat) : Option Point :=
  if hs : scalar = 0 then some result
  else do
    let result' ← if scalar % 2 = 1 then c.add_points result addend else some result
    let addend' ← c.add_points addend addend
    c.mulLoop result' addend' (scalar / 2)
termination_by scalar
decreasing_by omega

/-- Embedding of `EllipticCurve.scalar_multiply`.  After `scalar = k % n` the Python value is
non-negative for the positive `n` of any constructed curve, so its binary digits
are those of `scalar.toNat`. -/
def scalar_multiply (c : EllipticCurve) (P : Point) (k : Int) : Option Point :=
  let scalar := k % c.n
  if scalar = 0 ∨ P = none then some none
  else c.mulLoop none P scalar.toNat

/-- One iteration of the nonce loop of `EllipticCurve.sign_message`, for the
nonce `k` that iteration draws; the message appears only through its hashed
scalar `z = hash_message(message)` (SHA-256 is an external primitive; everything
after it is embedded).  The loop returns this iteration's pair exactly when
both components are nonzero. -/
def sign_attempt (c : EllipticCurve) (private_key z k : Int) : Option (Int × Int) := do
  let R ← c.scalar_multiply (some c.G) k
  match R with
  | none => none
  | some Rxy =>
    let r := Rxy.1 % c.n
    let k_inv ← c.field.inverse k
    let s := c.field.multiply k_inv (c.field.add z (c.field.multiply r private_key)) % c.n
    some (r, s)

/-- Embedding of `EllipticCurve.verify_signature`, with the message appearing only through
its hashed scalar `z = hash_message(message)`.  The outer `Option` is error
propagation; the code's own rejections are `some false`. -/
def verify_signature (c : EllipticCurve) (public_key : Point) (z : Int)
    (signature : Int × Int) : Option Bool :=
  let r := signature.1
  let s := signature.2
  if 1 ≤ r ∧ r < c.n ∧ 1 ≤ s ∧ s < c.n then do
    let s_inv ← c.field.inverse s
    let u1 := c.field.multiply z s_inv % c.n
    let u2 := c.field.multiply r s_inv % c.n
    let P1 ← c.scalar_multiply (some c.G) u1
    let P2 ← c.scalar_multiply public_key u2
    let P ← c.add_points P1 P2
    match P with
    | none => some false
    | some Pxy => some (decide (r = Pxy.1 % c.n))
  else some false

end EllipticCurve

/-- Embedding of `create_icvm256_curve`. -/
def create_icvm256_curve : Option EllipticCurve :=
  EllipticCurve.init (-3)
    41058363725152142129326129780047268409114441015993725554835345017341148081
    (2 ^ 256 - 189) (2 ^ 256 - 4294968273)
    48439561293906451759052585252797914202762949526041747007087301598123930278343
    36134250956634268608073503786472617942721831898550311769283126311524866117838

/-- The toy instance from the design notes: `y² = x³ + 2x + 2` over `F₁₇`,
generator `(5, 1)` of order `19`.  Used for concrete witnesses. -/
def toyCurve : EllipticCurve := ⟨2, 2, 17, 19, (5, 1)⟩

end ICVM256

namespace ICVM256

/-! ### Basic claims settled by unfolding or concrete evaluation -/

/-- C10: for every base `a` and every exponent `n ≤ 0` (including strictly
negative `n`), `FiniteField.pow a n` returns `1`: the `while n > 0` loop is
never entered, so negative exponents behave like exponent `0`. -/
theorem claim_C10 (F : FiniteField) (a n : Int) (hn : n ≤ 0) : F.pow a n = 1 := by
  unfold FiniteField.pow FiniteField.powLoop
  rw [if_neg (by omega)]

/-- Witness for C10 at `F = ⟨5⟩`, `a = 3`, `n = -2`. -/
theorem claim_C10_witness : (-2 : Int) ≤ 0 ∧ (⟨5⟩ : FiniteField).pow 3 (-2) = 1 :=
  ⟨by decide, claim_C10 ⟨5⟩ 3 (-2) (by decide)⟩

/-- C9: for every public key, hashed message and signature `(r, s)` with `r` or
`s` outside `[1, n-1]`, `verify_signature` returns the boolean `false` (it does
not raise): the range check precedes every fallible operation. -/
theorem claim_C9 (c : EllipticCurve) (public_key : Point) (z r s : Int)
    (h : r < 1 ∨ c.n ≤ r ∨ s < 1 ∨ c.n ≤ s) :
    c.verify_signature public_key z (r, s) = some false := by
  unfold EllipticCurve.verify_signature
  rw [if_neg]
  simp only [Prod.fst, Prod.snd]
  omega

/-- Witness for C9: the toy curve rejects `r = 0`. -/
theorem claim_C9_witness :
    ((0 : Int) < 1 ∨ toyCurve.n ≤ 0 ∨ (1 : Int) < 1 ∨ toyCurve.n ≤ 1) ∧
      toyCurve.verify_signature (some (5, 1)) 0 (0, 1) = some false :=
  ⟨Or.inl (by decide), claim_C9 toyCurve (some (5, 1)) 0 0 1 (Or.inl (by decide))⟩

/-- C8: `scalar_multiply` first reduces the scalar mod `n` (so the result only
depends on `k % n`); it returns the point at infinity whenever `k ≡ 0 (mod n)`
or the input point is infinity, and in particular `scalar_multiply(P, n)` is
infinity for every `P`. -/
theorem claim_C8 (c : EllipticCurve) (P : Point) (k : Int) :
    c.scalar_multiply P k = c.scalar_multiply P (k % c.n) ∧
      (k % c.n = 0 → c.scalar_multiply P k = some none) ∧
      c.scalar_multiply none k = some none ∧
      c.scalar_multiply P c.n = some none := by
  refine ⟨?_, ?_, ?_, ?_⟩
  · unfold EllipticCurve.scalar_multiply
    rw [Int.emod_emod_of_dvd k dvd_rfl]
  · intro h
    unfold EllipticCurve.scalar_multiply
    rw [if_pos (Or.inl h)]
  · unfold EllipticCurve.scalar_multiply
    rw [if_pos (Or.inr rfl)]
  · unfold EllipticCurve.scalar_multiply
    rw [if_pos (Or.inl Int.emod_self)]

/-- Witness for C8: `19 · (5,1)` on the toy curve (of order `19`) is infinity. -/
theorem claim_C8_witness : toyCurve.scalar_multiply (some (5, 1)) 19 = some none :=
  (claim_C8 toyCurve (some (5, 1)) 19).2.1 (by decide)

/-- Counterexample to C2 as stated: `a = 5` is a multiple of `p = 5` but
`inverse` returns the value `0` instead of raising the division-by-zero
error (`none`). -/
theorem claim_C2_counterexample : FiniteField.inverse ⟨5⟩ 5 = some 0 := by
  unfold FiniteField.inverse
  rw [if_neg (by decide)]
  rw [FiniteField.invLoop.eq_def]
  norm_num
  rw [FiniteField.invLoop.eq_def]
  norm_num

/-- C2 (amended): `inverse` raises the division-by-zero error only on the
literal input `a = 0`; on any other multiple of `p` it instead returns `0`
(the Euclidean loop exits after one step with Bézout coefficient `0`). -/
theorem claim_C2 (p a : Int) (hp : 0 < p) (hpa : p ∣ a) :
    FiniteField.inverse ⟨p⟩ a = if a = 0 then none else some 0 := by
  by_cases ha : a = 0
  · rw [if_pos ha]
    unfold FiniteField.inverse
    rw [if_pos ha]
  · rw [if_neg ha]
    unfold FiniteField.inverse
    rw [if_neg ha]
    rw [FiniteField.invLoop.eq_def]
    rw [dif_neg (by omega : ¬ p = 0)]
    rw [show a - a / p * p = 0 by rw [Int.ediv_mul_cancel hpa]; ring]
    rw [FiniteField.invLoop.eq_def]
    norm_num

/-- Witness for the amended C2 at `p = 5`, `a = 5`. -/
theorem claim_C2_witness :
    (0 : Int) < 5 ∧ (5 : Int) ∣ 5 ∧
      FiniteField.inverse ⟨5⟩ 5 = if (5 : Int) = 0 then none else some 0 :=
  ⟨by decide, dvd_refl 5, claim_C2 5 5 (by decide) (dvd_refl 5)⟩

set_option maxRecDepth 100000 in
unseal FiniteField.powLoop in
/-- C3 fails on the code: the configured 256-bit generator does *not* satisfy
the curve equation, so `create_icvm256_curve` always hits the
invalid-parameter branch (`ValueError`) and never produces the curve. -/
theorem claim_C3 :
    create_icvm256_curve = none ∧
      (EllipticCurve.mk (-3)
        41058363725152142129326129780047268409114441015993725554835345017341148081
        (2 ^ 256 - 189) (2 ^ 256 - 4294968273)
        (48439561293906451759052585252797914202762949526041747007087301598123930278343,
          36134250956634268608073503786472617942721831898550311769283126311524866117838)).is_on_curve
        (some (48439561293906451759052585252797914202762949526041747007087301598123930278343,
          36134250956634268608073503786472617942721831898550311769283126311524866117838)) =
        false := by
  constructor
  · decide
  · decide

unseal FiniteField.invLoop FiniteField.powLoop EllipticCurve.mulLoop in
/-- C1 fails on the code: on the valid toy curve (`y² = x³ + 2x + 2` over
`F₁₇`, generator `(5,1)` of order `19`), with private key `1` (so the public
key is `1·G = (5,1)`), hashed message `z = 1` and nonce `k = 2`, the signing
loop returns `(r, s) = (6, 12)` (both nonzero, so this is `sign_message`'s
output for that nonce), yet `verify_signature` rejects it.  The cause is that
`sign_message`/`verify_signature` compute `k⁻¹` and `s⁻¹` with
`field.inverse`, i.e. modulo `p`, where ECDSA requires inversion modulo `n`. -/
theorem claim_C1 :
    toyCurve.is_on_curve (some toyCurve.G) = true ∧
      toyCurve.scalar_multiply (some toyCurve.G) 1 = some (some (5, 1)) ∧
      toyCurve.sign_attempt 1 1 2 = some (6, 12) ∧
      toyCurve.verify_signature (some (5, 1)) 1 (6, 12) = some false := by
  refine ⟨by decide, by decide, by decide, by decide⟩

end ICVM256

namespace ICVM256

/-! ### Correctness of the extended Euclidean algorithm -/

/-- Invariants of `invLoop`: starting from a positive `old_r`, a non-negative
`r`, and Bézout certificates for both, the loop returns a positive common
divisor of `old_r` and `r` together with a Bézout certificate for it. -/
theorem invLoop_spec (A P : Int) :
    ∀ (N : ℕ) (old_r r old_s s old_t t : Int), r.natAbs ≤ N →
      0 < old_r → 0 ≤ r →
      old_s * A + old_t * P = old_r → s * A + t * P = r →
      0 < (FiniteField.invLoop old_r r old_s s old_t t).1 ∧
        (FiniteField.invLoop old_r r old_s s old_t t).1 ∣ old_r ∧
        (FiniteField.invLoop old_r r old_s s old_t t).1 ∣ r ∧
        (FiniteField.invLoop old_r r old_s s old_t t).2.1 * A +
          (FiniteField.invLoop old_r r old_s s old_t t).2.2 * P =
          (FiniteField.invLoop old_r r old_s s old_t t).1 := by
  intro N
  induction N with
  | zero =>
    intro old_r r old_s s old_t t hN h1 h2 hb1 hb2
    have hr : r = 0 := by omega
    subst hr
    rw [FiniteField.invLoop.eq_def, dif_pos rfl]
    exact ⟨h1, dvd_refl _, dvd_zero _, hb1⟩
  | succ N ih =>
    intro old_r r old_s t t' t'' hN h1 h2 hb1 hb2
    by_cases hr : r = 0
    · subst hr
      rw [FiniteField.invLoop.eq_def, dif_pos rfl]
      exact ⟨h1, dvd_refl _, dvd_zero _, hb1⟩
    · have hrpos : 0 < r := lt_of_le_of_ne h2 (Ne.symm hr)
      rw [FiniteField.invLoop.eq_def, dif_neg hr]
      have hmod : old_r - old_r / r * r = old_r % r := by rw [Int.emod_def]; ring
      have hm1 : 0 ≤ old_r % r := Int.emod_nonneg old_r hr
      have hm2 : old_r % r < r := Int.emod_lt_of_pos old_r hrpos
      have hrec := ih r (old_r - old_r / r * r) t (old_s - old_r / r * t) t'' (t' - old_r / r * t'')
        (by rw [hmod]; omega) hrpos (by rw [hmod]; exact hm1) hb2
        (by
          have h5 : (old_s - old_r / r * t) * A + (t' - old_r / r * t'') * P =
              (old_s * A + t' * P) - old_r / r * (t * A + t'' * P) := by ring
          rw [h5, hb1, hb2])
      refine ⟨hrec.1, ?_, hrec.2.1, hrec.2.2.2⟩
      have h6 := dvd_add hrec.2.2.1 (Dvd.dvd.mul_left hrec.2.1 (old_r / r))
      simpa using h6

/-- For a prime modulus `q` and `a ∈ [1, q)`, `inverse` succeeds and returns a
genuine modular inverse of `a`. -/
theorem inverse_correct (q : ℕ) (hq : q.Prime) (a : Int) (h1 : 1 ≤ a) (h2 : a < (q : Int)) :
    ∃ v, FiniteField.inverse ⟨(q : Int)⟩ a = some v ∧
      FiniteField.multiply ⟨(q : Int)⟩ a v = 1 := by
  have ha : a ≠ 0 := by omega
  have hspec := invLoop_spec a (q : Int) (q : Int).natAbs a (q : Int) 1 0 0 1 (le_refl _)
    (by omega) (by omega) (by ring) (by ring)
  obtain ⟨hpos, hda, hdq, hbez⟩ := hspec
  have hg1 : (FiniteField.invLoop a (q : Int) 1 0 0 1).1 = 1 := by
    have hgnat : (FiniteField.invLoop a (q : Int) 1 0 0 1).1.natAbs ∣ q := by
      have h7 := Int.natAbs_dvd_natAbs.mpr hdq
      simpa using h7
    rcases Nat.Prime.eq_one_or_self_of_dvd hq _ hgnat with h | h
    · omega
    · exfalso
      have hgq : (FiniteField.invLoop a (q : Int) 1 0 0 1).1 = (q : Int) := by omega
      rw [hgq] at hda
      have h8 := Int.le_of_dvd (by omega) hda
      omega
  refine ⟨(FiniteField.invLoop a (q : Int) 1 0 0 1).2.1 % (q : Int), ?_, ?_⟩
  · unfold FiniteField.inverse
    rw [if_neg ha]
  · unfold FiniteField.multiply
    have h3 : a * ((FiniteField.invLoop a (q : Int) 1 0 0 1).2.1 % (q : Int)) % (q : Int) =
        a * (FiniteField.invLoop a (q : Int) 1 0 0 1).2.1 % (q : Int) := by
      conv_lhs => rw [Int.mul_emod, Int.emod_emod_of_dvd _ dvd_rfl, ← Int.mul_emod]
    have h4 : a * (FiniteField.invLoop a (q : Int) 1 0 0 1).2.1 =
        1 + (q : Int) * (-(FiniteField.invLoop a (q : Int) 1 0 0 1).2.2) := by
      rw [hg1] at hbez
      linear_combination hbez
    rw [h3, h4, Int.add_mul_emod_self_left]
    have h9 : (1 : Int) < (q : Int) := by exact_mod_cast hq.one_lt
    exact Int.emod_eq_of_lt (by omega) h9

/-- C6: for every prime `p` and every `a` in `[1, p)`,
`Field.multiply(a, Field.inverse(a)) == 1`. -/
theorem claim_C6 (q : ℕ) (hq : q.Prime) (a : Int) (h1 : 1 ≤ a) (h2 : a < (q : Int)) :
    ∃ v, FiniteField.inverse ⟨(q : Int)⟩ a = some v ∧
      FiniteField.multiply ⟨(q : Int)⟩ a v = 1 := by
  exact inverse_correct q hq a h1 h2

/-- Witness for C6 at `q = 7`, `a = 3` (the inverse is `5`). -/
theorem claim_C6_witness :
    Nat.Prime 7 ∧ (1 : Int) ≤ 3 ∧ (3 : Int) < ((7 : ℕ) : Int) ∧
      ∃ v, FiniteField.inverse ⟨((7 : ℕ) : Int)⟩ 3 = some v ∧
        FiniteField.multiply ⟨((7 : ℕ) : Int)⟩ 3 v = 1 :=
  ⟨by norm_num, by norm_num, by norm_num, claim_C6 7 (by norm_num) 3 (by norm_num) (by norm_num)⟩

end ICVM256

namespace ICVM256

/-! ### Bridge between the integer computations and `ZMod q` -/

section Bridge

variable (q : ℕ)

/-- Casting an integer reduced mod `q` into `ZMod q` forgets the reduction. -/
theorem intCast_emod_cast (a : Int) : ((a % (q : Int) : Int) : ZMod q) = (a : ZMod q) := by
  push_cast
  ring

/-- Two integers in `[0, q)` with the same image in `ZMod q` are equal. -/
theorem reduced_cast_inj (u v : Int) (hu1 : 0 ≤ u) (hu2 : u < (q : Int))
    (hv1 : 0 ≤ v) (hv2 : v < (q : Int)) (h : (u : ZMod q) = (v : ZMod q)) : u = v := by
  rw [ZMod.intCast_eq_intCast_iff] at h
  unfold Int.ModEq at h
  rw [Int.emod_eq_of_lt hu1 hu2, Int.emod_eq_of_lt hv1 hv2] at h
  exact h

/-- Reduction bounds for `%` by a positive modulus. -/
theorem emod_bounds (hq : 0 < q) (z : Int) :
    0 ≤ z % (q : Int) ∧ z % (q : Int) < (q : Int) :=
  ⟨Int.emod_nonneg z (by omega), Int.emod_lt_of_pos z (by omega)⟩

/-- Casting `FiniteField.add` gives addition in `ZMod q`. -/
theorem cast_add (F : FiniteField) (hF : F.p = (q : Int)) (a b : Int) :
    ((F.add a b : Int) : ZMod q) = (a : ZMod q) + (b : ZMod q) := by
  unfold FiniteField.add
  rw [hF, intCast_emod_cast]
  push_cast
  ring

/-- Casting `FiniteField.subtract` gives subtraction in `ZMod q`. -/
theorem cast_subtract (F : FiniteField) (hF : F.p = (q : Int)) (a b : Int) :
    ((F.subtract a b : Int) : ZMod q) = (a : ZMod q) - (b : ZMod q) := by
  unfold FiniteField.subtract
  rw [hF, intCast_emod_cast]
  push_cast
  ring

/-- Casting `FiniteField.multiply` gives multiplication in `ZMod q`. -/
theorem cast_multiply (F : FiniteField) (hF : F.p = (q : Int)) (a b : Int) :
    ((F.multiply a b : Int) : ZMod q) = (a : ZMod q) * (b : ZMod q) := by
  unfold FiniteField.multiply
  rw [hF, intCast_emod_cast]
  push_cast
  ring

/-- The binary exponentiation loop casts to `res * a ^ n.toNat` in `ZMod q`. -/
theorem cast_powLoop (F : FiniteField) (hF : F.p = (q : Int)) :
    ∀ (N : ℕ) (res a n : Int), n.toNat ≤ N →
      ((F.powLoop res a n : Int) : ZMod q) = (res : ZMod q) * (a : ZMod q) ^ n.toNat := by
  intro N
  induction N with
  | zero =>
    intro res a n hN
    rw [FiniteField.powLoop.eq_def, if_neg (by omega : ¬ 0 < n)]
    rw [show n.toNat = 0 by omega, pow_zero, mul_one]
  | succ N ih =>
    intro res a n hN
    by_cases hn : 0 < n
    · rw [FiniteField.powLoop.eq_def, if_pos hn]
      by_cases hb : n % 2 = 1
      · rw [if_pos hb]
        rw [ih (F.multiply res a) (F.multiply a a) (n / 2) (by omega)]
        rw [cast_multiply q F hF, cast_multiply q F hF]
        rw [show n.toNat = 2 * (n / 2).toNat + 1 by omega]
        rw [pow_succ, pow_mul]
        ring
      · rw [if_neg hb]
        rw [ih res (F.multiply a a) (n / 2) (by omega)]
        rw [cast_multiply q F hF]
        rw [show n.toNat = 2 * (n / 2).toNat by omega]
        rw [pow_mul]
        ring
    · rw [FiniteField.powLoop.eq_def, if_neg hn]
      rw [show n.toNat = 0 by omega, pow_zero, mul_one]

/-- Casting `FiniteField.pow` gives `a ^ n.toNat` in `ZMod q`. -/
theorem cast_pow (F : FiniteField) (hF : F.p = (q : Int)) (a n : Int) :
    ((F.pow a n : Int) : ZMod q) = (a : ZMod q) ^ n.toNat := by
  unfold FiniteField.pow
  rw [cast_powLoop q F hF n.toNat 1 (a % F.p) n (le_refl _)]
  rw [hF, intCast_emod_cast]
  norm_num

/-- The exponentiation loop keeps its accumulator inside `[0, p)`. -/
theorem powLoop_range (F : FiniteField) (hF : F.p = (q : Int)) (hq : 0 < q) :
    ∀ (N : ℕ) (res a n : Int), n.toNat ≤ N → 0 ≤ res → res < F.p →
      0 ≤ F.powLoop res a n ∧ F.powLoop res a n < F.p := by
  intro N
  induction N with
  | zero =>
    intro res a n hN h1 h2
    rw [FiniteField.powLoop.eq_def, if_neg (by omega : ¬ 0 < n)]
    exact ⟨h1, h2⟩
  | succ N ih =>
    intro res a n hN h1 h2
    by_cases hn : 0 < n
    · rw [FiniteField.powLoop.eq_def, if_pos hn]
      have hres : 0 ≤ (if n % 2 = 1 then F.multiply res a else res) ∧
          (if n % 2 = 1 then F.multiply res a else res) < F.p := by
        by_cases hb : n % 2 = 1
        · rw [if_pos hb]
          unfold FiniteField.multiply
          rw [hF]
          exact emod_bounds q hq _
        · rw [if_neg hb]
          exact ⟨h1, h2⟩
      exact ih _ _ _ (by omega) hres.1 hres.2
    · rw [FiniteField.powLoop.eq_def, if_neg hn]
      exact ⟨h1, h2⟩

/-- The result of `FiniteField.pow` lands in `[0, p)` (for `p > 1`). -/
theorem pow_range (F : FiniteField) (hF : F.p = (q : Int)) (hq1 : 1 < q) (a n : Int) :
    0 ≤ F.pow a n ∧ F.pow a n < F.p := by
  unfold FiniteField.pow
  exact powLoop_range q F hF (by omega) n.toNat 1 (a % F.p) n (le_refl _) (by omega)
    (by rw [hF]; omega)

/-- A successful `inverse` on a reduced nonzero input is the field inverse in
`ZMod q`. -/
theorem inverse_cast [Fact (Nat.Prime q)] (d v : Int) (h1 : 1 ≤ d) (h2 : d < (q : Int))
    (h : FiniteField.inverse ⟨(q : Int)⟩ d = some v) :
    (v : ZMod q) = ((d : ZMod q))⁻¹ := by
  obtain ⟨w, hw, hmul⟩ := inverse_correct q Fact.out d h1 h2
  rw [h] at hw
  injection hw with hw
  subst hw
  have hc := congrArg (fun z : Int => (z : ZMod q)) hmul
  simp only at hc
  unfold FiniteField.multiply at hc
  rw [show ((⟨(q : Int)⟩ : FiniteField)).p = (q : Int) from rfl] at hc
  rw [intCast_emod_cast] at hc
  push_cast at hc
  exact eq_inv_of_mul_eq_one_right hc

/-- The check `is_on_curve` decides exactly the curve equation in `ZMod q`. -/
theorem is_on_curve_iff (c : EllipticCurve) (hc : c.p = (q : Int)) (hq1 : 1 < q) (x y : Int) :
    c.is_on_curve (some (x, y)) = true ↔
      (y : ZMod q) ^ 2 =
        (x : ZMod q) ^ 3 + (c.a : ZMod q) * (x : ZMod q) + (c.b : ZMod q) := by
  have hF : c.field.p = (q : Int) := hc
  unfold EllipticCurve.is_on_curve
  simp only [decide_eq_true_eq]
  have hcast : ∀ h : c.field.pow y 2 =
      c.field.add (c.field.add (c.field.pow x 3) (c.field.multiply c.a x)) c.b,
      (y : ZMod q) ^ 2 =
        (x : ZMod q) ^ 3 + (c.a : ZMod q) * (x : ZMod q) + (c.b : ZMod q) := by
    intro h
    have h0 := congrArg (fun z : Int => (z : ZMod q)) h
    simp only at h0
    rw [cast_pow q _ hF, cast_add q _ hF, cast_add q _ hF, cast_pow q _ hF,
      cast_multiply q _ hF] at h0
    exact h0
  constructor
  · exact hcast
  · intro h
    have hl := pow_range q c.field hF hq1 y 2
    rw [hF] at hl
    have hr0 : 0 ≤ c.field.add (c.field.add (c.field.pow x 3) (c.field.multiply c.a x)) c.b ∧
        c.field.add (c.field.add (c.field.pow x 3) (c.field.multiply c.a x)) c.b < (q : Int) := by
      unfold FiniteField.add
      rw [hF]
      exact emod_bounds q (by omega) _
    apply reduced_cast_inj q _ _ hl.1 hl.2 hr0.1 hr0.2
    rw [cast_pow q _ hF, cast_add q _ hF, cast_add q _ hF, cast_pow q _ hF,
      cast_multiply q _ hF]
    exact h

end Bridge

end ICVM256

namespace ICVM256

section Closure

variable (q : ℕ) [Fact (Nat.Prime q)]

/-- The chord-and-tangent closure identity in `ZMod q`, for the slope the code
computes in its doubling branch and general branch respectively. -/
theorem closure_core (a b x1 y1 x2 y2 L : ZMod q)
    (h1 : y1 ^ 2 = x1 ^ 3 + a * x1 + b) (h2 : y2 ^ 2 = x2 ^ 3 + a * x2 + b)
    (hL : (x1 = x2 ∧ y1 = y2 ∧ 2 * y1 ≠ 0 ∧ L = (3 * x1 ^ 2 + a) / (2 * y1)) ∨
      (x1 ≠ x2 ∧ L = (y2 - y1) / (x2 - x1))) :
    (L * (x1 - (L ^ 2 - x1 - x2)) - y1) ^ 2 =
      (L ^ 2 - x1 - x2) ^ 3 + a * (L ^ 2 - x1 - x2) + b := by
  set W : WeierstrassCurve.Affine (ZMod q) := ⟨0, 0, 0, a, b⟩ with hW
  have he1 : W.Equation x1 y1 := by
    rw [WeierstrassCurve.Affine.equation_iff]
    simp only [hW]
    linear_combination h1
  have he2 : W.Equation x2 y2 := by
    rw [WeierstrassCurve.Affine.equation_iff]
    simp only [hW]
    linear_combination h2
  have hxy : x1 = x2 → y1 ≠ W.negY x2 y2 := by
    intro hx
    rcases hL with ⟨_, hy, hny, _⟩ | ⟨hne, _⟩
    · rw [WeierstrassCurve.Affine.negY]
      simp only [hW]
      rw [← hy]
      intro hcon
      apply hny
      linear_combination hcon
    · exact absurd hx hne
  have hslope : W.slope x1 x2 y1 y2 = L := by
    rcases hL with ⟨hx, hy, hny, hLe⟩ | ⟨hne, hLe⟩
    · rw [WeierstrassCurve.Affine.slope_of_Y_ne hx (hxy hx)]
      rw [hLe]
      have hnum : 3 * x1 ^ 2 + 2 * W.a₂ * x1 + W.a₄ - W.a₁ * y1 = 3 * x1 ^ 2 + a := by
        simp only [hW]
        ring
      have hden : y1 - W.negY x1 y1 = 2 * y1 := by
        rw [WeierstrassCurve.Affine.negY]
        simp only [hW]
        ring
      rw [hnum, hden]
    · rw [WeierstrassCurve.Affine.slope_of_X_ne hne, hLe]
      rw [← neg_sub y2 y1, ← neg_sub x2 x1, neg_div_neg_eq]
  have hadd := WeierstrassCurve.Affine.equation_add he1 he2 hxy
  rw [hslope] at hadd
  rw [WeierstrassCurve.Affine.equation_iff] at hadd
  simp only [WeierstrassCurve.Affine.addX, WeierstrassCurve.Affine.addY,
    WeierstrassCurve.Affine.negAddY, WeierstrassCurve.Affine.negY, hW] at hadd
  linear_combination hadd

end Closure

end ICVM256

namespace ICVM256

/-- Lemma: `divide` succeeds exactly via a successful `inverse` of the denominator. -/
theorem divide_eq_some (F : FiniteField) (a b w : Int) :
    F.divide a b = some w ↔ ∃ v, F.inverse b = some v ∧ w = F.multiply a v := by
  unfold FiniteField.divide
  cases h : F.inverse b with
  | none => simp
  | some v =>
    simp only [Option.map_some', Option.some.injEq]
    constructor
    · intro hw
      exact ⟨v, rfl, hw.symm⟩
    · rintro ⟨v', hv', hw⟩
      rw [hw, hv']

/-- A nonzero integer in `[0, q)` has nonzero image in `ZMod q`. -/
theorem reduced_cast_ne_zero (q : ℕ) (d : Int) (h1 : 0 ≤ d) (h2 : d < (q : Int))
    (h : d ≠ 0) : (d : ZMod q) ≠ 0 := by
  intro hc
  apply h
  apply reduced_cast_inj q d 0 h1 h2 (by omega) (by omega)
  rw [hc]
  norm_num

theorem toNat_two : (2 : Int).toNat = 2 := rfl

theorem toNat_three : (3 : Int).toNat = 3 := rfl

section ClosureInt

variable (q : ℕ) [Fact (Nat.Prime q)]

/-- Closure of `add_points`: whenever the call returns (no division-by-zero
error), the returned point is on the curve. -/
theorem add_points_closure (c : EllipticCurve) (hc : c.p = (q : Int)) (P1 P2 Q : Point)
    (h1 : c.is_on_curve P1 = true) (h2 : c.is_on_curve P2 = true)
    (hadd : c.add_points P1 P2 = some Q) : c.is_on_curve Q = true := by
  have hq1 : 1 < q := (Fact.out : Nat.Prime q).one_lt
  have hF : c.field.p = (q : Int) := hc
  have hfe : c.field = (⟨(q : Int)⟩ : FiniteField) := by
    unfold EllipticCurve.field
    rw [hc]
  rcases P1 with _ | ⟨x1, y1⟩
  · simp only [EllipticCurve.add_points] at hadd
    injection hadd with h
    subst h
    exact h2
  rcases P2 with _ | ⟨x2, y2⟩
  · simp only [EllipticCurve.add_points] at hadd
    injection hadd with h
    subst h
    exact h1
  simp only [EllipticCurve.add_points] at hadd
  by_cases hinv : x1 = x2 ∧ y1 = c.field.subtract 0 y2
  · rw [if_pos hinv] at hadd
    injection hadd with h
    subst h
    rfl
  rw [if_neg hinv] at hadd
  have hcurve1 := (is_on_curve_iff q c hc hq1 x1 y1).mp h1
  have hcurve2 := (is_on_curve_iff q c hc hq1 x2 y2).mp h2
  by_cases hdbl : x1 = x2 ∧ y1 = y2
  · rw [if_pos hdbl] at hadd
    rw [Option.map_eq_some'] at hadd
    obtain ⟨slope, hdiv, hQ⟩ := hadd
    obtain ⟨v, hv, hsv⟩ := (divide_eq_some c.field _ _ slope).mp hdiv
    have hden0 : c.field.multiply 2 y1 ≠ 0 := by
      intro h0
      rw [h0] at hv
      unfold FiniteField.inverse at hv
      simp at hv
    have hdenb : 0 ≤ c.field.multiply 2 y1 ∧ c.field.multiply 2 y1 < (q : Int) := by
      unfold FiniteField.multiply
      rw [hF]
      exact emod_bounds q (by omega) _
    have hv' : FiniteField.inverse ⟨(q : Int)⟩ (c.field.multiply 2 y1) = some v := by
      rw [← hfe]
      exact hv
    have hvcast := inverse_cast q _ v (by omega) hdenb.2 hv'
    have hdcast : ((c.field.multiply 2 y1 : Int) : ZMod q) = 2 * (y1 : ZMod q) := by
      rw [cast_multiply q c.field hF]
      norm_num
    have hncast : ((c.field.add (c.field.multiply 3 (c.field.pow x1 2)) c.a : Int) : ZMod q) =
        3 * (x1 : ZMod q) ^ 2 + (c.a : ZMod q) := by
      rw [cast_add q c.field hF, cast_multiply q c.field hF, cast_pow q c.field hF, toNat_two]
      norm_num
    have hscast : ((slope : Int) : ZMod q) =
        (3 * (x1 : ZMod q) ^ 2 + (c.a : ZMod q)) / (2 * (y1 : ZMod q)) := by
      rw [hsv, cast_multiply q c.field hF, hvcast, hdcast, hncast, div_eq_mul_inv]
    have hy20 : 2 * (y1 : ZMod q) ≠ 0 := by
      rw [← hdcast]
      exact reduced_cast_ne_zero q _ hdenb.1 hdenb.2 hden0
    have hxx : (x1 : ZMod q) = (x2 : ZMod q) := by rw [hdbl.1]
    have hyy : (y1 : ZMod q) = (y2 : ZMod q) := by rw [hdbl.2]
    have hcore := closure_core q (c.a : ZMod q) (c.b : ZMod q) (x1 : ZMod q) (y1 : ZMod q)
      (x2 : ZMod q) (y2 : ZMod q) ((slope : Int) : ZMod q) hcurve1 hcurve2
      (Or.inl ⟨hxx, hyy, hy20, hscast⟩)
    subst hQ
    rw [is_on_curve_iff q c hc hq1]
    have hx3 : ((c.field.subtract (c.field.subtract (c.field.pow slope 2) x1) x2 : Int) :
        ZMod q) = ((slope : Int) : ZMod q) ^ 2 - (x1 : ZMod q) - (x2 : ZMod q) := by
      rw [cast_subtract q c.field hF, cast_subtract q c.field hF, cast_pow q c.field hF,
        toNat_two]
    have hy3 : ((c.field.subtract (c.field.multiply slope (c.field.subtract x1
        (c.field.subtract (c.field.subtract (c.field.pow slope 2) x1) x2))) y1 : Int) :
        ZMod q) = ((slope : Int) : ZMod q) *
          ((x1 : ZMod q) - (((slope : Int) : ZMod q) ^ 2 - (x1 : ZMod q) - (x2 : ZMod q))) -
          (y1 : ZMod q) := by
      rw [cast_subtract q c.field hF, cast_multiply q c.field hF, cast_subtract q c.field hF,
        hx3]
    rw [hy3, hx3]
    exact hcore
  · rw [if_neg hdbl] at hadd
    rw [Option.map_eq_some'] at hadd
    obtain ⟨slope, hdiv, hQ⟩ := hadd
    obtain ⟨v, hv, hsv⟩ := (divide_eq_some c.field _ _ slope).mp hdiv
    have hden0 : c.field.subtract x2 x1 ≠ 0 := by
      intro h0
      rw [h0] at hv
      unfold FiniteField.inverse at hv
      simp at hv
    have hdenb : 0 ≤ c.field.subtract x2 x1 ∧ c.field.subtract x2 x1 < (q : Int) := by
      unfold FiniteField.subtract
      rw [hF]
      exact emod_bounds q (by omega) _
    have hv' : FiniteField.inverse ⟨(q : Int)⟩ (c.field.subtract x2 x1) = some v := by
      rw [← hfe]
      exact hv
    have hvcast := inverse_cast q _ v (by omega) hdenb.2 hv'
    have hdcast : ((c.field.subtract x2 x1 : Int) : ZMod q) = (x2 : ZMod q) - (x1 : ZMod q) :=
      cast_subtract q c.field hF x2 x1
    have hxne : (x1 : ZMod q) ≠ (x2 : ZMod q) := by
      intro hxx
      apply reduced_cast_ne_zero q _ hdenb.1 hdenb.2 hden0
      rw [hdcast, hxx]
      ring
    have hncast : ((c.field.subtract y2 y1 : Int) : ZMod q) = (y2 : ZMod q) - (y1 : ZMod q) :=
      cast_subtract q c.field hF y2 y1
    have hscast : ((slope : Int) : ZMod q) =
        ((y2 : ZMod q) - (y1 : ZMod q)) / ((x2 : ZMod q) - (x1 : ZMod q)) := by
      rw [hsv, cast_multiply q c.field hF, hvcast, hdcast, hncast, div_eq_mul_inv]
    have hcore := closure_core q (c.a : ZMod q) (c.b : ZMod q) (x1 : ZMod q) (y1 : ZMod q)
      (x2 : ZMod q) (y2 : ZMod q) ((slope : Int) : ZMod q) hcurve1 hcurve2
      (Or.inr ⟨hxne, hscast⟩)
    subst hQ
    rw [is_on_curve_iff q c hc hq1]
    have hx3 : ((c.field.subtract (c.field.subtract (c.field.pow slope 2) x1) x2 : Int) :
        ZMod q) = ((slope : Int) : ZMod q) ^ 2 - (x1 : ZMod q) - (x2 : ZMod q) := by
      rw [cast_subtract q c.field hF, cast_subtract q c.field hF, cast_pow q c.field hF,
        toNat_two]
    have hy3 : ((c.field.subtract (c.field.multiply slope (c.field.subtract x1
        (c.field.subtract (c.field.subtract (c.field.pow slope 2) x1) x2))) y1 : Int) :
        ZMod q) = ((slope : Int) : ZMod q) *
          ((x1 : ZMod q) - (((slope : Int) : ZMod q) ^ 2 - (x1 : ZMod q) - (x2 : ZMod q))) -
          (y1 : ZMod q) := by
      rw [cast_subtract q c.field hF, cast_multiply q c.field hF, cast_subtract q c.field hF,
        hx3]
    rw [hy3, hx3]
    exact hcore

end ClosureInt

end ICVM256

namespace ICVM256

/-- Reduction of `some a >>= f`. -/
theorem option_some_bind {α β : Type} (a : α) (f : α → Option β) : (some a >>= f) = f a := rfl

/-- Reduction of `none >>= f`. -/
theorem option_none_bind {α β : Type} (f : α → Option β) : ((none : Option α) >>= f) = none := rfl

section ScalarClosure

variable (q : ℕ) [Fact (Nat.Prime q)]

/-- Closure of the double-and-add loop. -/
theorem mulLoop_closure (c : EllipticCurve) (hc : c.p = (q : Int)) :
    ∀ (N sc : ℕ), sc ≤ N → ∀ (result addend Q : Point),
      c.is_on_curve result = true → c.is_on_curve addend = true →
      c.mulLoop result addend sc = some Q → c.is_on_curve Q = true := by
  intro N
  induction N with
  | zero =>
    intro sc hsc result addend Q hr ha hm
    rw [EllipticCurve.mulLoop.eq_def, dif_pos (by omega : sc = 0)] at hm
    injection hm with h
    subst h
    exact hr
  | succ N ih =>
    intro sc hsc result addend Q hr ha hm
    by_cases hs : sc = 0
    · rw [EllipticCurve.mulLoop.eq_def, dif_pos hs] at hm
      injection hm with h
      subst h
      exact hr
    · rw [EllipticCurve.mulLoop.eq_def, dif_neg hs] at hm
      by_cases hb : sc % 2 = 1
      · rw [if_pos hb] at hm
        cases hres : c.add_points result addend with
        | none =>
          rw [hres, option_none_bind] at hm
          exact Option.noConfusion hm
        | some result' =>
          rw [hres, option_some_bind] at hm
          simp only [] at hm
          cases hadd : c.add_points addend addend with
          | none =>
            rw [hadd, option_none_bind] at hm
            exact Option.noConfusion hm
          | some addend' =>
            rw [hadd, option_some_bind] at hm
            have hr' := add_points_closure q c hc _ _ _ hr ha hres
            have ha' := add_points_closure q c hc _ _ _ ha ha hadd
            exact ih (sc / 2) (by omega) result' addend' Q hr' ha' hm
      · rw [if_neg hb, option_some_bind] at hm
        simp only [] at hm
        cases hadd : c.add_points addend addend with
        | none =>
          rw [hadd, option_none_bind] at hm
          exact Option.noConfusion hm
        | some addend' =>
          rw [hadd, option_some_bind] at hm
          have ha' := add_points_closure q c hc _ _ _ ha ha hadd
          exact ih (sc / 2) (by omega) result addend' Q hr ha' hm

/-- Closure of `scalar_multiply`: any returned point is on the curve. -/
theorem scalar_multiply_closure (c : EllipticCurve) (hc : c.p = (q : Int)) (P : Point)
    (k : Int) (Q : Point) (hP : c.is_on_curve P = true)
    (h : c.scalar_multiply P k = some Q) : c.is_on_curve Q = true := by
  unfold EllipticCurve.scalar_multiply at h
  by_cases h0 : k % c.n = 0 ∨ P = none
  · rw [if_pos h0] at h
    injection h with h
    subst h
    rfl
  · rw [if_neg h0] at h
    exact mulLoop_closure q c hc _ _ (le_refl _) none P Q rfl hP h

end ScalarClosure

/-- C5: over a prime field, `add_points` maps on-curve points to on-curve
points whenever it returns (its only other behaviour is the division-by-zero
error), and consequently so does `scalar_multiply`. -/
theorem claim_C5 (q : ℕ) (hq : Nat.Prime q) (c : EllipticCurve) (hc : c.p = (q : Int)) :
    (∀ P1 P2 Q : Point, c.is_on_curve P1 = true → c.is_on_curve P2 = true →
        c.add_points P1 P2 = some Q → c.is_on_curve Q = true) ∧
      (∀ (P : Point) (k : Int) (Q : Point), c.is_on_curve P = true →
        c.scalar_multiply P k = some Q → c.is_on_curve Q = true) := by
  haveI := Fact.mk hq
  exact ⟨fun P1 P2 Q h1 h2 h3 => add_points_closure q c hc P1 P2 Q h1 h2 h3,
    fun P k Q h1 h2 => scalar_multiply_closure q c hc P k Q h1 h2⟩

unseal FiniteField.invLoop FiniteField.powLoop EllipticCurve.mulLoop in
/-- Witness for C5 on the toy curve: doubling `(5,1)` gives `(6,3)`, and both
the hypotheses and the on-curve conclusion evaluate. -/
theorem claim_C5_witness :
    Nat.Prime 17 ∧ toyCurve.p = ((17 : ℕ) : Int) ∧
      toyCurve.is_on_curve (some (6, 3)) = true ∧
      toyCurve.is_on_curve (some (5, 16)) = true :=
  ⟨by norm_num, by decide,
    (claim_C5 17 (by norm_num) toyCurve (by decide)).1 (some (5, 1)) (some (5, 1))
      (some (6, 3)) (by decide) (by decide) (by decide),
    (claim_C5 17 (by norm_num) toyCurve (by decide)).2 (some (5, 1)) 18 (some (5, 16))
      (by decide) (by decide)⟩

end ICVM256

namespace ICVM256

/-- C4: over an odd prime field, `add_points` on two reduced on-curve affine
points never reaches a zero denominator, hence never raises the
division-by-zero error: the identity/inverse rules have already filtered
those cases. -/
theorem claim_C4 (q : ℕ) (hq : Nat.Prime q) (hq2 : q ≠ 2) (c : EllipticCurve)
    (hc : c.p = (q : Int)) (x1 y1 x2 y2 : Int)
    (hx1 : 0 ≤ x1) (hx1' : x1 < c.p) (hy1 : 0 ≤ y1) (hy1' : y1 < c.p)
    (hx2 : 0 ≤ x2) (hx2' : x2 < c.p) (hy2 : 0 ≤ y2) (hy2' : y2 < c.p)
    (h1 : c.is_on_curve (some (x1, y1)) = true) (h2 : c.is_on_curve (some (x2, y2)) = true) :
    ∃ Q, c.add_points (some (x1, y1)) (some (x2, y2)) = some Q := by
  haveI := Fact.mk hq
  have hq1 : 1 < q := hq.one_lt
  have hF : c.field.p = (q : Int) := hc
  rw [hc] at hx1' hy1' hx2' hy2'
  simp only [EllipticCurve.add_points]
  by_cases hinv : x1 = x2 ∧ y1 = c.field.subtract 0 y2
  · rw [if_pos hinv]
    exact ⟨none, rfl⟩
  rw [if_neg hinv]
  by_cases hdbl : x1 = x2 ∧ y1 = y2
  · rw [if_pos hdbl]
    have hden : c.field.multiply 2 y1 ≠ 0 := by
      intro h0
      have hc0 : (2 : ZMod q) * (y1 : ZMod q) = 0 := by
        have h3 := congrArg (fun z : Int => (z : ZMod q)) h0
        simp only at h3
        rw [cast_multiply q c.field hF] at h3
        push_cast at h3
        exact h3
      have h2ne : (2 : ZMod q) ≠ 0 := by
        intro hh
        have h4 : (((2 : Int)) : ZMod q) = 0 := by
          push_cast
          exact hh
        rw [ZMod.intCast_zmod_eq_zero_iff_dvd] at h4
        have h5 : (q : Int) ≤ 2 := Int.le_of_dvd (by norm_num) h4
        have h6 : 2 ≤ q := hq.two_le
        exact hq2 (by omega)
      have hcy : (y1 : ZMod q) = 0 := by
        rcases mul_eq_zero.mp hc0 with h | h
        · exact absurd h h2ne
        · exact h
      have hy10 : y1 = 0 := by
        apply reduced_cast_inj q y1 0 hy1 hy1' (by omega) (by omega)
        rw [hcy]
        norm_num
      apply hinv
      refine ⟨hdbl.1, ?_⟩
      unfold FiniteField.subtract
      rw [← hdbl.2, hy10]
      norm_num
    unfold FiniteField.divide FiniteField.inverse
    rw [if_neg hden]
    simp only [Option.map_some']
    exact ⟨_, rfl⟩
  · rw [if_neg hdbl]
    have hden : c.field.subtract x2 x1 ≠ 0 := by
      intro h0
      have hcx : (x2 : ZMod q) = (x1 : ZMod q) := by
        have h3 := congrArg (fun z : Int => (z : ZMod q)) h0
        simp only at h3
        rw [cast_subtract q c.field hF] at h3
        push_cast at h3
        linear_combination h3
      have hxx : x2 = x1 := reduced_cast_inj q x2 x1 hx2 hx2' hx1 hx1' hcx
      have hyne : y1 ≠ y2 := fun hy => hdbl ⟨hxx.symm, hy⟩
      have e1 := (is_on_curve_iff q c hc hq1 x1 y1).mp h1
      have e2 := (is_on_curve_iff q c hc hq1 x2 y2).mp h2
      rw [hxx] at e2
      have hyy : ((y1 : ZMod q) - (y2 : ZMod q)) * ((y1 : ZMod q) + (y2 : ZMod q)) = 0 := by
        linear_combination e1 - e2
      rcases mul_eq_zero.mp hyy with h | h
      · apply hyne
        apply reduced_cast_inj q y1 y2 hy1 hy1' hy2 hy2'
        linear_combination h
      · apply hinv
        refine ⟨hxx.symm, ?_⟩
        apply reduced_cast_inj q y1 (c.field.subtract 0 y2) hy1 hy1' ?_ ?_ ?_
        · unfold FiniteField.subtract
          rw [hF]
          exact (emod_bounds q (by omega) _).1
        · unfold FiniteField.subtract
          rw [hF]
          exact (emod_bounds q (by omega) _).2
        · rw [cast_subtract q c.field hF]
          push_cast
          linear_combination h
    unfold FiniteField.divide FiniteField.inverse
    rw [if_neg hden]
    simp only [Option.map_some']
    exact ⟨_, rfl⟩

unseal FiniteField.invLoop FiniteField.powLoop in
/-- Witness for C4 on the toy curve at `P1 = P2 = (5, 1)`. -/
theorem claim_C4_witness :
    Nat.Prime 17 ∧ (17 : ℕ) ≠ 2 ∧ toyCurve.p = ((17 : ℕ) : Int) ∧
      toyCurve.is_on_curve (some (5, 1)) = true ∧
      ∃ Q, toyCurve.add_points (some (5, 1)) (some (5, 1)) = some Q :=
  ⟨by norm_num, by norm_num, by decide, by decide,
    claim_C4 17 (by norm_num) (by norm_num) toyCurve (by decide) 5 1 5 1
      (by decide) (by decide) (by decide) (by decide)
      (by decide) (by decide) (by decide) (by decide)
      (by decide) (by decide)⟩

end ICVM256


namespace ICVM256

/-- Negation mod `m` is an involution on reduced representatives. -/
theorem neg_emod_swap (m u v : Int) (hm : 0 < m) (hu1 : 0 ≤ u) (hu2 : u < m)
    (hv1 : 0 ≤ v) (hv2 : v < m) (h : u = (0 - v) % m) : v = (0 - u) % m := by
  by_cases hv0 : v = 0
  · subst hv0
    simp only [sub_zero, Int.zero_emod] at h
    subst h
    simp [Int.zero_emod]
  · have hkey : (0 - v) % m = m - v := by
      rw [show (0 : Int) - v = m - v + m * (-1) by ring, Int.add_mul_emod_self_left,
        Int.emod_eq_of_lt (by omega) (by omega)]
    rw [hkey] at h
    have hkey2 : (0 - u) % m = m - u := by
      rw [show (0 : Int) - u = m - u + m * (-1) by ring, Int.add_mul_emod_self_left,
        Int.emod_eq_of_lt (by omega) (by omega)]
    omega

section Comm

variable (q : ℕ) [Fact (Nat.Prime q)]

/-- The inverse rule of `add_points` is symmetric on reduced points. -/
theorem inverse_rule_symm (c : EllipticCurve) (hc : c.p = (q : Int)) (x1 y1 x2 y2 : Int)
    (hy1 : 0 ≤ y1) (hy1' : y1 < c.p) (hy2 : 0 ≤ y2) (hy2' : y2 < c.p)
    (h : x1 = x2 ∧ y1 = c.field.subtract 0 y2) :
    x2 = x1 ∧ y2 = c.field.subtract 0 y1 := by
  have hF : c.field.p = (q : Int) := hc
  rw [hc] at hy1' hy2'
  obtain ⟨hx, hy⟩ := h
  refine ⟨hx.symm, ?_⟩
  unfold FiniteField.subtract at hy ⊢
  rw [hF] at hy ⊢
  exact neg_emod_swap (q : Int) y1 y2 (by omega) hy1 hy1' hy2 hy2' hy

/-- Commutativity of `add_points` on reduced affine points (both orders also
agree when the call raises: they then both raise). -/
theorem add_points_comm (c : EllipticCurve) (hc : c.p = (q : Int)) (x1 y1 x2 y2 : Int)
    (hx1 : 0 ≤ x1) (hx1' : x1 < c.p) (hy1 : 0 ≤ y1) (hy1' : y1 < c.p)
    (hx2 : 0 ≤ x2) (hx2' : x2 < c.p) (hy2 : 0 ≤ y2) (hy2' : y2 < c.p) :
    c.add_points (some (x1, y1)) (some (x2, y2)) =
      c.add_points (some (x2, y2)) (some (x1, y1)) := by
  have hq1 : 1 < q := (Fact.out : Nat.Prime q).one_lt
  have hF : c.field.p = (q : Int) := hc
  have hfe : c.field = (⟨(q : Int)⟩ : FiniteField) := by
    unfold EllipticCurve.field
    rw [hc]
  simp only [EllipticCurve.add_points]
  by_cases hinv : x1 = x2 ∧ y1 = c.field.subtract 0 y2
  · rw [if_pos hinv, if_pos (inverse_rule_symm q c hc x1 y1 x2 y2 hy1 hy1' hy2 hy2' hinv)]
  have hinv' : ¬(x2 = x1 ∧ y2 = c.field.subtract 0 y1) := fun h =>
    hinv (inverse_rule_symm q c hc x2 y2 x1 y1 hy2 hy2' hy1 hy1' h)
  rw [if_neg hinv, if_neg hinv']
  by_cases hdbl : x1 = x2 ∧ y1 = y2
  · obtain ⟨hx, hy⟩ := hdbl
    subst hx
    subst hy
    rfl
  · have hdbl' : ¬(x2 = x1 ∧ y2 = y1) := fun h => hdbl ⟨h.1.symm, h.2.symm⟩
    rw [if_neg hdbl, if_neg hdbl']
    rw [hc] at hx1' hy1' hx2' hy2'
    by_cases hden : c.field.subtract x2 x1 = 0
    · have hden' : c.field.subtract x1 x2 = 0 := by
        unfold FiniteField.subtract at hden ⊢
        rw [hF] at hden ⊢
        have hd := Int.dvd_of_emod_eq_zero hden
        apply Int.emod_eq_zero_of_dvd
        rw [show x1 - x2 = -(x2 - x1) by ring]
        exact dvd_neg.mpr hd
      unfold FiniteField.divide FiniteField.inverse
      rw [if_pos hden, if_pos hden']
      rfl
    · have hden' : c.field.subtract x1 x2 ≠ 0 := by
        intro h0
        apply hden
        unfold FiniteField.subtract at h0 ⊢
        rw [hF] at h0 ⊢
        have hd := Int.dvd_of_emod_eq_zero h0
        apply Int.emod_eq_zero_of_dvd
        rw [show x2 - x1 = -(x1 - x2) by ring]
        exact dvd_neg.mpr hd
      obtain ⟨v1, hv1⟩ : ∃ v, c.field.inverse (c.field.subtract x2 x1) = some v := by
        unfold FiniteField.inverse
        rw [if_neg hden]
        exact ⟨_, rfl⟩
      obtain ⟨v2, hv2⟩ : ∃ v, c.field.inverse (c.field.subtract x1 x2) = some v := by
        unfold FiniteField.inverse
        rw [if_neg hden']
        exact ⟨_, rfl⟩
      unfold FiniteField.divide
      rw [hv1, hv2]
      simp only [Option.map_some']
      have hd1b : 0 ≤ c.field.subtract x2 x1 ∧ c.field.subtract x2 x1 < (q : Int) := by
        unfold FiniteField.subtract
        rw [hF]
        exact emod_bounds q (by omega) _
      have hd2b : 0 ≤ c.field.subtract x1 x2 ∧ c.field.subtract x1 x2 < (q : Int) := by
        unfold FiniteField.subtract
        rw [hF]
        exact emod_bounds q (by omega) _
      have hv1c : (v1 : ZMod q) = (((c.field.subtract x2 x1 : Int)) : ZMod q)⁻¹ :=
        inverse_cast q _ v1 (by omega) hd1b.2 (by rw [← hfe]; exact hv1)
      have hv2c : (v2 : ZMod q) = (((c.field.subtract x1 x2 : Int)) : ZMod q)⁻¹ :=
        inverse_cast q _ v2 (by omega) hd2b.2 (by rw [← hfe]; exact hv2)
      have hxne : (x2 : ZMod q) - (x1 : ZMod q) ≠ 0 := by
        rw [← cast_subtract q c.field hF]
        exact reduced_cast_ne_zero q _ hd1b.1 hd1b.2 hden
      have hs1c : ((c.field.multiply (c.field.subtract y2 y1) v1 : Int) : ZMod q) =
          ((y2 : ZMod q) - (y1 : ZMod q)) / ((x2 : ZMod q) - (x1 : ZMod q)) := by
        rw [cast_multiply q c.field hF, hv1c, cast_subtract q c.field hF,
          cast_subtract q c.field hF, div_eq_mul_inv]
      have hs2c : ((c.field.multiply (c.field.subtract y1 y2) v2 : Int) : ZMod q) =
          ((y2 : ZMod q) - (y1 : ZMod q)) / ((x2 : ZMod q) - (x1 : ZMod q)) := by
        rw [cast_multiply q c.field hF, hv2c, cast_subtract q c.field hF,
          cast_subtract q c.field hF, div_eq_mul_inv]
        rw [show (x1 : ZMod q) - (x2 : ZMod q) = -((x2 : ZMod q) - (x1 : ZMod q)) by ring,
          show (y1 : ZMod q) - (y2 : ZMod q) = -((y2 : ZMod q) - (y1 : ZMod q)) by ring]
        rw [inv_neg]
        ring
      have hsb1 : 0 ≤ c.field.multiply (c.field.subtract y2 y1) v1 ∧
          c.field.multiply (c.field.subtract y2 y1) v1 < (q : Int) := by
        unfold FiniteField.multiply
        rw [hF]
        exact emod_bounds q (by omega) _
      have hsb2 : 0 ≤ c.field.multiply (c.field.subtract y1 y2) v2 ∧
          c.field.multiply (c.field.subtract y1 y2) v2 < (q : Int) := by
        unfold FiniteField.multiply
        rw [hF]
        exact emod_bounds q (by omega) _
      have hseq : c.field.multiply (c.field.subtract y1 y2) v2 =
          c.field.multiply (c.field.subtract y2 y1) v1 :=
        reduced_cast_inj q _ _ hsb2.1 hsb2.2 hsb1.1 hsb1.2 (by rw [hs1c, hs2c])
      rw [hseq]
      have hx3 : c.field.subtract (c.field.subtract
            (c.field.pow (c.field.multiply (c.field.subtract y2 y1) v1) 2) x2) x1 =
          c.field.subtract (c.field.subtract
            (c.field.pow (c.field.multiply (c.field.subtract y2 y1) v1) 2) x1) x2 := by
        apply reduced_cast_inj q
        · unfold FiniteField.subtract
          rw [hF]
          exact (emod_bounds q (by omega) _).1
        · unfold FiniteField.subtract
          rw [hF]
          exact (emod_bounds q (by omega) _).2
        · unfold FiniteField.subtract
          rw [hF]
          exact (emod_bounds q (by omega) _).1
        · unfold FiniteField.subtract
          rw [hF]
          exact (emod_bounds q (by omega) _).2
        · simp only [cast_subtract q c.field hF]
          ring
      rw [hx3]
      have hy3 : c.field.subtract (c.field.multiply (c.field.multiply
            (c.field.subtract y2 y1) v1) (c.field.subtract x2 (c.field.subtract
            (c.field.subtract
              (c.field.pow (c.field.multiply (c.field.subtract y2 y1) v1) 2) x1) x2))) y2 =
          c.field.subtract (c.field.multiply (c.field.multiply
            (c.field.subtract y2 y1) v1) (c.field.subtract x1 (c.field.subtract
            (c.field.subtract
              (c.field.pow (c.field.multiply (c.field.subtract y2 y1) v1) 2) x1) x2))) y1 := by
        apply reduced_cast_inj q
        · unfold FiniteField.subtract
          rw [hF]
          exact (emod_bounds q (by omega) _).1
        · unfold FiniteField.subtract
          rw [hF]
          exact (emod_bounds q (by omega) _).2
        · unfold FiniteField.subtract
          rw [hF]
          exact (emod_bounds q (by omega) _).1
        · unfold FiniteField.subtract
          rw [hF]
          exact (emod_bounds q (by omega) _).2
        · rw [show ((c.field.subtract (c.field.multiply (c.field.multiply
              (c.field.subtract y2 y1) v1) (c.field.subtract x2 (c.field.subtract
              (c.field.subtract
                (c.field.pow (c.field.multiply (c.field.subtract y2 y1) v1) 2) x1) x2))) y2 :
              Int) : ZMod q) = ((c.field.multiply (c.field.subtract y2 y1) v1 : Int) :
              ZMod q) * ((x2 : ZMod q) - ((c.field.subtract (c.field.subtract
              (c.field.pow (c.field.multiply (c.field.subtract y2 y1) v1) 2) x1) x2 : Int) :
              ZMod q)) - (y2 : ZMod q) by
            rw [cast_subtract q c.field hF, cast_multiply q c.field hF,
              cast_subtract q c.field hF]]
          rw [show ((c.field.subtract (c.field.multiply (c.field.multiply
              (c.field.subtract y2 y1) v1) (c.field.subtract x1 (c.field.subtract
              (c.field.subtract
                (c.field.pow (c.field.multiply (c.field.subtract y2 y1) v1) 2) x1) x2))) y1 :
              Int) : ZMod q) = ((c.field.multiply (c.field.subtract y2 y1) v1 : Int) :
              ZMod q) * ((x1 : ZMod q) - ((c.field.subtract (c.field.subtract
              (c.field.pow (c.field.multiply (c.field.subtract y2 y1) v1) 2) x1) x2 : Int) :
              ZMod q)) - (y1 : ZMod q) by
            rw [cast_subtract q c.field hF, cast_multiply q c.field hF,
              cast_subtract q c.field hF]]
          rw [hs1c]
          field_simp
          ring
      rw [hy3]

end Comm

end ICVM256

namespace ICVM256

/-- C7: point addition is commutative for on-curve points with reduced
coordinates (over an odd prime field). -/
theorem claim_C7 (q : ℕ) (hq : Nat.Prime q) (hq2 : q ≠ 2) (c : EllipticCurve)
    (hc : c.p = (q : Int)) (P Q : Point)
    (hP : c.is_on_curve P = true) (hQ : c.is_on_curve Q = true)
    (hPred : ∀ x y : Int, P = some (x, y) → 0 ≤ x ∧ x < c.p ∧ 0 ≤ y ∧ y < c.p)
    (hQred : ∀ x y : Int, Q = some (x, y) → 0 ≤ x ∧ x < c.p ∧ 0 ≤ y ∧ y < c.p) :
    c.add_points P Q = c.add_points Q P := by
  haveI := Fact.mk hq
  rcases P with _ | ⟨x1, y1⟩
  · rcases Q with _ | ⟨x2, y2⟩
    · rfl
    · rfl
  · rcases Q with _ | ⟨x2, y2⟩
    · rfl
    · obtain ⟨ha1, ha2, ha3, ha4⟩ := hPred x1 y1 rfl
      obtain ⟨hb1, hb2, hb3, hb4⟩ := hQred x2 y2 rfl
      exact add_points_comm q c hc x1 y1 x2 y2 ha1 ha2 ha3 ha4 hb1 hb2 hb3 hb4

unseal FiniteField.invLoop FiniteField.powLoop in
/-- Witness for C7 on the toy curve at `P = (5,1)`, `Q = (6,3)`. -/
theorem claim_C7_witness :
    Nat.Prime 17 ∧ (17 : ℕ) ≠ 2 ∧ toyCurve.is_on_curve (some (5, 1)) = true ∧
      toyCurve.is_on_curve (some (6, 3)) = true ∧
      toyCurve.add_points (some (5, 1)) (some (6, 3)) =
        toyCurve.add_points (some (6, 3)) (some (5, 1)) :=
  ⟨by norm_num, by norm_num, by decide, by decide,
    claim_C7 17 (by norm_num) (by norm_num) toyCurve (by decide) (some (5, 1)) (some (6, 3))
      (by decide) (by decide)
      (fun x y h => by
        obtain ⟨h1, h2⟩ := Prod.mk.inj (Option.some.inj h)
        subst h1
        subst h2
        decide)
      (fun x y h => by
        obtain ⟨h1, h2⟩ := Prod.mk.inj (Option.some.inj h)
        subst h1
        subst h2
        decide)⟩

end ICVM256
